import Mathlib

/-!
Zipfian dataset generator (`datasets/Zipfian/src/zipfian.c`)

A shallow embedding of the sampling pipeline of `zipfian.c`:

* arrays of `uint32_t` are lists of naturals; every access is checked, an index outside the
  allocation yields `Fault.outOfBounds`, and every store is reduced modulo `2^32`;
* the uniform generator `xuni_rand` (declared in `xutil.h`) is a stream `u : ℕ → ℚ` of the values
  it returns, threaded through the code as the number of calls made so far;
* `alias_draw` (declared in `alias.h`) is a stream `draw : ℕ → ℕ` of the indices it returns;
* `for` loops over a fixed range are monadic folds over that range, the `while` loop of the
  sampling phase carries an iteration budget.
-/

namespace Zipfian

/-! ## Data model -/

/-- Ways a run stops without producing its output. -/
inductive Fault where
  /-- Exit through `printusage(argv); exit(EXIT_FAILURE)`. -/
  | usage
  /-- Exit through `xerror(strerror(errno), ...)` after an option was read. -/
  | errnoSet
  /-- An array index outside the allocation. -/
  | outOfBounds
  /-- The iteration budget of the sampling loop ran out. -/
  | outOfFuel
  deriving DecidableEq, Repr

/-- Buffer capacity in records, `#define BUFFER (1024*512)`. -/
def BUFFER : ℕ := 1024 * 512

/-- Length of the report, `#define TOPK 4096`. -/
def TOPK : ℕ := 4096

/-- Number of values of a `uint32_t`. -/
def U32 : ℕ := 2 ^ 32

/-- Number of values of a `uint64_t`. -/
def U64 : ℕ := 2 ^ 64

/-- Allocation `xmalloc(sizeof(uint32_t) * n)`: a fresh block of `n` cells (contents modelled as zero). -/
def xmalloc (n : ℕ) : List ℕ := List.replicate n 0

/-- Checked read `a[i]` of a `uint32_t` array. -/
def rd (a : List ℕ) (i : ℕ) : Except Fault ℕ :=
  if h : i < a.length then .ok (a.get ⟨i, h⟩) else .error .outOfBounds

/-- Checked store `a[i] = v` into a `uint32_t` array; the value is converted to 32 bits. -/
def wr (a : List ℕ) (i v : ℕ) : Except Fault (List ℕ) :=
  if i < a.length then .ok (a.set i (v % U32)) else .error .outOfBounds

/-- The conversion `uint64_t j = x * k` of the product of a uniform draw `x` and an integer `k`:
truncation of a non-negative real. -/
def uniIndex (x : ℚ) (k : ℕ) : ℕ := ⌊x * (k : ℚ)⌋₊

/-! ## `shuffle` (lines 19-29) -/

/-- Body of the loop of `shuffle` at index `i`; the state is the number of `xuni_rand` calls made
so far and the array. -/
def shuffleStep (u : ℕ → ℚ) (s : ℕ × List ℕ) (i : ℕ) : Except Fault (ℕ × List ℕ) := do
  let j := uniIndex (u s.1) (i + 1)
  let t ← rd s.2 j
  let ai ← rd s.2 i
  let a1 ← wr s.2 j ai
  let a2 ← wr a1 i t
  pure (s.1 + 1, a2)

/-- The function `static void shuffle(uint32_t *array, uint64_t n)`; `pos` is the number of
`xuni_rand` calls made before the call. -/
def shuffle (u : ℕ → ℚ) (pos : ℕ) (array : List ℕ) (n : ℕ) : Except Fault (ℕ × List ℕ) :=
  if n > 1 then (List.range (n - 1)).foldlM (shuffleStep u) (pos, array)
  else pure (pos, array)

/-! ## Initialisation and universe extension (lines 148-161) -/

/-- Body of the initialisation loop, `cnt[i] = 0; map[i] = i;` (the `table` part of the
loop, in `double` arithmetic, is not modelled). -/
def initStep (s : List ℕ × List ℕ) (i : ℕ) : Except Fault (List ℕ × List ℕ) := do
  let cnt ← wr s.1 i 0
  let map ← wr s.2 i i
  pure (cnt, map)

/-- The allocations of `cnt` and `map` followed by `for (i = 0; i < N; i++)`. -/
def initArrays (N : ℕ) : Except Fault (List ℕ × List ℕ) :=
  (List.range N).foldlM initStep (xmalloc N, xmalloc N)

/-- Body of the extension loop: `j = xuni_rand()*(i+1); if (j < N) map[j] = i;`. -/
def extendStep (u : ℕ → ℚ) (N : ℕ) (s : ℕ × List ℕ) (i : ℕ) : Except Fault (ℕ × List ℕ) := do
  let j := uniIndex (u s.1) (i + 1)
  if j < N then
    let map ← wr s.2 j i
    pure (s.1 + 1, map)
  else
    pure (s.1 + 1, s.2)

/-- The loop `for (i = N; i < m; i++)`. -/
def extend (u : ℕ → ℚ) (N m pos : ℕ) (map : List ℕ) : Except Fault (ℕ × List ℕ) :=
  (List.range' N (m - N)).foldlM (extendStep u N) (pos, map)

/-- The Universe Remapper: identity initialisation, `shuffle(map, N)`, extension loop.
Returns `cnt`, the finished `map` and the number of `xuni_rand` calls made. -/
def universeRemap (u : ℕ → ℚ) (N m : ℕ) : Except Fault (List ℕ × List ℕ × ℕ) := do
  let (cnt, map) ← initArrays N
  let (p1, map1) ← shuffle u 0 map N
  let (p2, map2) ← extend u N m p1 map1
  pure (cnt, map2, p2)

/-! ## Sampling loop (lines 166-183) -/

/-- Variables of the inner `for` loop: buffer index `j`, draw counter `i`, the tallies and the
buffer `res`.  `i` and `j` are `uint64_t`; they are bounded by `count` and `BUFFER`, so the
increments never wrap. -/
structure Chunk where
  j : ℕ
  i : ℕ
  cnt : List ℕ
  res : List ℕ
  deriving DecidableEq, Repr

/-- The loop `for (j = 0; i < count && j < BUFFER; j++, i++)`, started from state `s`, with `B`
the buffer capacity. The first argument bounds the iterations; `B` suffices from `j = 0`. -/
def fillChunk (B count : ℕ) (map : List ℕ) (draw : ℕ → ℕ) : ℕ → Chunk → Except Fault Chunk
  | 0, s => if s.i < count ∧ s.j < B then .error .outOfFuel else .ok s
  | fuel + 1, s =>
    if s.i < count ∧ s.j < B then do
      let d := draw s.i % U32
      let c ← rd s.cnt d
      let cnt ← wr s.cnt d (c + 1)
      let v ← rd map d
      let res ← wr s.res s.j v
      fillChunk B count map draw fuel { j := s.j + 1, i := s.i + 1, cnt := cnt, res := res }
    else .ok s

/-- Variables of the outer `while` loop: draw counter `i`, the tallies, and the chunks handed to
`fwrite(res, sizeof(uint32_t), j, tmp)` so far, oldest first (writes are taken to complete). -/
structure Sample where
  i : ℕ
  cnt : List ℕ
  tmp : List (List ℕ)
  deriving DecidableEq, Repr

/-- The loop `while (i < count)`: clear the buffer, fill a chunk, write its first `j` records. -/
def samplingLoop (B count : ℕ) (map : List ℕ) (draw : ℕ → ℕ) : ℕ → Sample → Except Fault Sample
  | 0, st => if st.i < count then .error .outOfFuel else .ok st
  | fuel + 1, st =>
    if st.i < count then do
      let res := List.replicate B 0
      let s ← fillChunk B count map draw B { j := 0, i := st.i, cnt := st.cnt, res := res }
      samplingLoop B count map draw fuel
        { i := s.i, cnt := s.cnt, tmp := st.tmp ++ [s.res.take s.j] }
    else .ok st

/-! ## Top-K report (lines 187-194) -/

/-- Modelled from the spec: `quicksort_map` (declared in `qsort.h`, whose code is not among the
sources) sorts the pairs `(cnt[i], map[i])`, `i` in `[0, N)`, by count descending, permuting
`map` in lock-step; ties keep their order. -/
def quicksort_map (cnt map : List ℕ) : List ℕ × List ℕ :=
  ((cnt.zip map).insertionSort (fun a b => b.1 ≤ a.1)).unzip

/-- Value of the `double` division `(double)a / b` of two unsigned integers: `0/0` is NaN, a
positive numerator over `0` is `+inf`, otherwise the quotient (rounding is not modelled). -/
inductive Dbl where
  | nan
  | inf
  | val (q : ℚ)
  deriving DecidableEq, Repr

/-- The expression `(double)cnt[i] / count`. -/
def fdiv (a b : ℕ) : Dbl :=
  if b = 0 then (if a = 0 then .nan else .inf) else .val ((a : ℚ) / (b : ℚ))

/-- Body of the Top-K loop: one line `#map[i]: cnt[i]/count`. -/
def topkStep (cnt map : List ℕ) (count : ℕ) (out : List (ℕ × Dbl)) (i : ℕ) :
    Except Fault (List (ℕ × Dbl)) := do
  let id ← rd map i
  let c ← rd cnt i
  pure (out ++ [(id, fdiv c count)])

/-- The loop `for (i = 0; i < TOPK && i < N; i++)`. -/
def topK (cnt map : List ℕ) (count N : ℕ) : Except Fault (List (ℕ × Dbl)) :=
  (List.range (min TOPK N)).foldlM (topkStep cnt map count) []

/-! ## The pipeline of `main` after option handling (lines 148-209) -/

/-- What a completed run leaves behind. -/
structure Run where
  /-- Identity Map after the remapper (before the Top-K sort). -/
  map : List ℕ
  /-- Occurrence counters after sampling (before the Top-K sort). -/
  cnt : List ℕ
  /-- Chunks written to the staging file. -/
  chunks : List (List ℕ)
  /-- Lines of the Top-K block. -/
  topk : List (ℕ × Dbl)
  /-- Sample stream copied from staging to the output file. -/
  stream : List ℕ
  deriving DecidableEq, Repr

/-- Initialisation, remapper, sampling, sort, Top-K block and the copy of the staging file,
with buffer capacity `B`. -/
def pipelineWith (B : ℕ) (u : ℕ → ℚ) (draw : ℕ → ℕ) (N m count fuel : ℕ) : Except Fault Run := do
  let (cnt0, map, _) ← universeRemap u N m
  let st ← samplingLoop B count map draw fuel { i := 0, cnt := cnt0, tmp := [] }
  let (scnt, smap) := quicksort_map st.cnt map
  let top ← topK scnt smap count N
  pure { map := map, cnt := st.cnt, chunks := st.tmp, topk := top, stream := st.tmp.flatten }

/-- The pipeline with the program's buffer capacity. -/
def pipeline (u : ℕ → ℚ) (draw : ℕ → ℕ) (N m count fuel : ℕ) : Except Fault Run :=
  pipelineWith BUFFER u draw N m count fuel

/-! ## Option handling (lines 55-116) -/

/-- Variables set by the options, over a type `D` standing for `double`: `alpha`, `count`, `N`,
`m`, `filename` (`none` is `NULL`, otherwise the bytes of the name) and the seeds `I1`, `I2`,
globals of `xutil` whose declaration is not among the sources and which hold here the value
`strtoll` returned. -/
structure Config (D : Type) where
  alpha : D
  count : ℕ
  N : ℕ
  m : ℕ
  filename : Option (List UInt8)
  I1 : ℤ
  I2 : ℤ

/-- State before the first option (lines 70-74): `alpha = 0.5` (the parameter `half`),
`count = 1 << 25`, `N = 1 << 20`, `m = UINT32_MAX`, `filename = NULL`; the initial seeds are
parameters. -/
def defaultConfig {D : Type} (half : D) (seed1 seed2 : ℤ) : Config D :=
  { alpha := half, count := 2 ^ 25, N := 2 ^ 20, m := U32 - 1, filename := none,
    I1 := seed1, I2 := seed2 }

/-- One return value of `getopt_long` with what the `switch` reads from `optarg`: the value of
`strtod`, `strtol` or `strtoll`, or for `f` the bytes of the argument. `other` is the return
value `?` for an option character outside `optstring`. Long options are covered only when they
name an entry of `long_options`. -/
inductive Opt (D : Type) where
  | a (v : D)
  | N (v : ℤ)
  | m (v : ℤ)
  | c (v : ℤ)
  | f (name : List UInt8)
  | s1 (v : ℤ)
  | s2 (v : ℤ)
  | i
  | other

/-- Conversion of a `long` to `uint32_t`. -/
def toU32 (v : ℤ) : ℕ := (v % (U32 : ℤ)).toNat

/-- Conversion of a `long long` to `uint64_t`. -/
def toU64 (v : ℤ) : ℕ := (v % (U64 : ℤ)).toNat

/-- One turn of the `getopt_long` loop: the `switch`, then the `errno` test. The flag paired
with the option tells whether `errno != 0` holds after the `switch`. `strndup(optarg, 256)`
keeps at most 256 bytes of the name. -/
def optStep {D : Type} (cfg : Config D) (o : Opt D × Bool) : Except Fault (Config D) := do
  let cfg1 ← match o.1 with
    | .a v => pure { cfg with alpha := v }
    | .N v => pure { cfg with N := toU32 v }
    | .m v => pure { cfg with m := toU32 v }
    | .c v => pure { cfg with count := toU64 v }
    | .f name => pure { cfg with filename := some (name.take 256) }
    | .s1 v => pure { cfg with I1 := v }
    | .s2 v => pure { cfg with I2 := v }
    | .i => throw Fault.usage
    | .other => throw Fault.usage
  if o.2 then throw Fault.errnoSet else pure cfg1

/-- The option loop followed by `if (filename == NULL) { printusage(argv); exit(EXIT_FAILURE); }`:
the only tests made on the configuration. -/
def configStage {D : Type} (half : D) (seed1 seed2 : ℤ) (args : List (Opt D × Bool)) :
    Except Fault (Config D) := do
  let cfg ← args.foldlM optStep (defaultConfig half seed1 seed2)
  match cfg.filename with
  | none => throw Fault.usage
  | some _ => pure cfg

/-- The program: option handling, then the pipeline on the configured `N`, `m`, `count`
(`tmpfile` and `fopen` are taken to succeed). -/
def main {D : Type} (half : D) (seed1 seed2 : ℤ) (args : List (Opt D × Bool)) (u : ℕ → ℚ)
    (draw : ℕ → ℕ) (fuel : ℕ) : Except Fault Run := do
  let cfg ← configStage half seed1 seed2 args
  pipeline u draw cfg.N cfg.m cfg.count fuel

/-! ## Reference functions used to state results -/

/-- One tally update `cnt[d] += 1` on 32-bit counters. -/
def tallyStep (cnt : List ℕ) (d : ℕ) : List ℕ := cnt.set d ((cnt.getD d 0 + 1) % U32)

/-- Tallies after the draws numbered `a, ..., a + k - 1`. -/
def tally (draw : ℕ → ℕ) (cnt : List ℕ) (a k : ℕ) : List ℕ :=
  (List.range' a k).foldl (fun c t => tallyStep c (draw t % U32)) cnt

/-- Records `map[d_a], ..., map[d_(a+k-1)]` in draw order. -/
def emitted (map : List ℕ) (draw : ℕ → ℕ) (a k : ℕ) : List ℕ :=
  (List.range' a k).map (fun t => map.getD (draw t % U32) 0)

theorem foldlM_range'_inv {σ : Type} (f : σ → ℕ → Except Fault σ) (I : ℕ → σ → Prop) :
    ∀ (b a : ℕ) (s0 : σ), I a s0 →
      (∀ i s, a ≤ i → i < a + b → I i s → ∃ s', f s i = .ok s' ∧ I (i + 1) s') →
      ∃ s', (List.range' a b).foldlM f s0 = .ok s' ∧ I (a + b) s' := by
  intro b
  induction b with
  | zero => intro a s0 h0 _; exact ⟨s0, rfl, by simpa using h0⟩
  | succ b ih =>
    intro a s0 h0 hstep
    obtain ⟨s1, hs1, hI1⟩ := hstep a s0 (le_refl _) (by omega) h0
    obtain ⟨s2, hs2, hI2⟩ := ih (a + 1) s1 hI1
      (fun i s hai hib hI => hstep i s (by omega) (by omega) hI)
    refine ⟨s2, ?_, ?_⟩
    · rw [List.range'_succ, List.foldlM_cons, hs1]
      exact hs2
    · have : a + (b + 1) = a + 1 + b := by omega
      rw [this]; exact hI2

theorem foldlM_range_inv {σ : Type} (f : σ → ℕ → Except Fault σ) (I : ℕ → σ → Prop)
    (n : ℕ) (s0 : σ) (h0 : I 0 s0)
    (hstep : ∀ i s, i < n → I i s → ∃ s', f s i = .ok s' ∧ I (i + 1) s') :
    ∃ s', (List.range n).foldlM f s0 = .ok s' ∧ I n s' := by
  have h := foldlM_range'_inv f I n 0 s0 h0
    (fun i s _ hi hI => hstep i s (by omega) hI)
  rw [List.range_eq_range']
  simpa using h

theorem uniIndex_le (x : ℚ) (k : ℕ) (h0 : 0 ≤ x) (h1 : x < 1) : uniIndex x (k + 1) ≤ k := by
  unfold uniIndex
  have hk : (0 : ℚ) < ((k + 1 : ℕ) : ℚ) := by positivity
  have hlt : x * ((k + 1 : ℕ) : ℚ) < ((k + 1 : ℕ) : ℚ) := by nlinarith
  have := (Nat.floor_lt (by positivity)).2 hlt
  omega

theorem rd_ok (a : List ℕ) (i : ℕ) (h : i < a.length) : rd a i = .ok (a.getD i 0) := by
  simp [rd, h, List.getD_eq_getElem]

theorem wr_ok (a : List ℕ) (i v : ℕ) (h : i < a.length) (hv : v < U32) :
    wr a i v = .ok (a.set i v) := by
  simp [wr, h, Nat.mod_eq_of_lt hv]

theorem swap_perm (a : List ℕ) (i j : ℕ) (hi : i < a.length) (hj : j < a.length) :
    ((a.set j (a.getD i 0)).set i (a.getD j 0)).Perm a := by
  rw [List.perm_iff_count]
  intro x
  rw [List.count_set _ _ _ _ (by simpa using hi), List.count_set _ _ _ _ hj]
  simp only [List.getD_eq_getElem _ _ hi, List.getD_eq_getElem _ _ hj, List.getElem_set]
  have h1 := List.count_pos_iff.2 (List.getElem_mem hi : a[i] ∈ a)
  have h2 := List.count_pos_iff.2 (List.getElem_mem hj : a[j] ∈ a)
  by_cases hij : j = i
  · subst hij
    simp
    by_cases hx : a[j] = x
    · subst hx; simp
    · simp [hx]
  · simp [hij]
    by_cases hx : a[j] = x
    · subst hx; simp
    · simp [hx]


/-! ## The remapper -/

theorem initArrays_eq (N : ℕ) (hN : N ≤ U32) :
    initArrays N = .ok (List.replicate N 0, List.range N) := by
  have h := foldlM_range_inv initStep
    (fun k s => k ≤ N → s = (List.replicate N 0, List.range k ++ List.replicate (N - k) 0))
    N (xmalloc N, xmalloc N) (by intro _; simp [xmalloc])
    (by
      intro i s hi hI
      have hs := hI (by omega)
      subst hs
      refine ⟨(List.replicate N 0, List.range (i + 1) ++ List.replicate (N - (i + 1)) 0), ?_, ?_⟩
      · have hU : 0 < U32 := by norm_num [U32]
        have e1 : wr (List.replicate N 0) i 0 = .ok (List.replicate N 0) := by
          rw [wr_ok _ _ _ (by simpa using hi) hU]; simp
        have e2 : wr (List.range i ++ List.replicate (N - i) 0) i i
            = .ok (List.range (i + 1) ++ List.replicate (N - (i + 1)) 0) := by
          rw [wr_ok _ _ _ (by simp; omega) (by omega)]
          congr 1
          rw [List.set_append_right _ _ (by simp)]
          have : N - i = (N - (i + 1)) + 1 := by omega
          rw [this, List.replicate_succ]
          simp [List.range_succ]
        simp only [initStep, e1, e2, bind, Except.bind, pure, Except.pure]
      · intro _; rfl)
  obtain ⟨s', hs', hI⟩ := h
  have := hI (le_refl _)
  subst this
  simpa [initArrays] using hs'

theorem shuffleStep_eq (u : ℕ → ℚ) (p i : ℕ) (a : List ℕ)
    (hu : 0 ≤ u p ∧ u p < 1) (hi : i < a.length) (hv : ∀ x ∈ a, x < U32) :
    ∃ j, j ≤ i ∧ shuffleStep u (p, a) i
      = .ok (p + 1, (a.set j (a.getD i 0)).set i (a.getD j 0)) := by
  have hji : uniIndex (u p) (i + 1) ≤ i := uniIndex_le _ _ hu.1 hu.2
  have hj : uniIndex (u p) (i + 1) < a.length := lt_of_le_of_lt hji hi
  refine ⟨uniIndex (u p) (i + 1), hji, ?_⟩
  have v1 : a.getD i 0 < U32 := by
    rw [List.getD_eq_getElem _ _ hi]; exact hv _ (List.getElem_mem hi)
  have v2 : a.getD (uniIndex (u p) (i + 1)) 0 < U32 := by
    rw [List.getD_eq_getElem _ _ hj]; exact hv _ (List.getElem_mem hj)
  simp only [shuffleStep, rd_ok _ _ hj, rd_ok _ _ hi, wr_ok _ _ _ hj v1,
    wr_ok _ _ _ (show i < (a.set (uniIndex (u p) (i + 1)) (a.getD i 0)).length by simpa using hi) v2,
    bind, Except.bind, pure, Except.pure]

theorem shuffleStep_ok (u : ℕ → ℚ) (p i : ℕ) (a : List ℕ)
    (hu : 0 ≤ u p ∧ u p < 1) (hi : i < a.length) (hv : ∀ x ∈ a, x < U32) :
    ∃ a', shuffleStep u (p, a) i = .ok (p + 1, a') ∧ a'.Perm a := by
  obtain ⟨j, hj, h⟩ := shuffleStep_eq u p i a hu hi hv
  exact ⟨_, h, swap_perm a i j hi (by omega)⟩

theorem shuffle_perm (u : ℕ → ℚ) (p n : ℕ) (a : List ℕ)
    (hu : ∀ k, 0 ≤ u k ∧ u k < 1) (hn : n ≤ a.length) (hv : ∀ x ∈ a, x < U32) :
    ∃ a', shuffle u p a n = .ok (p + (n - 1), a') ∧ a'.Perm a := by
  unfold shuffle
  split_ifs with h1
  · have h := foldlM_range_inv (shuffleStep u)
      (fun k s => s.1 = p + k ∧ s.2.Perm a) (n - 1) (p, a) ⟨rfl, List.Perm.refl _⟩
      (by
        rintro i ⟨q, b⟩ hi ⟨hq, hb⟩
        simp only at hq hb
        subst hq
        obtain ⟨a', ha', hp⟩ := shuffleStep_ok u (p + i) i b (hu _)
          (by rw [hb.length_eq]; omega) (fun x hx => hv x (hb.subset hx))
        exact ⟨(p + i + 1, a'), ha', rfl, hp.trans hb⟩)
    obtain ⟨⟨q, b⟩, hs, hq, hb⟩ := h
    simp only at hq hb
    subst hq
    exact ⟨b, hs, hb⟩
  · have : n - 1 = 0 := by omega
    exact ⟨a, by simp [this, pure, Except.pure], List.Perm.refl _⟩

theorem extend_inv (u : ℕ → ℚ) (N m p : ℕ) (a : List ℕ)
    (hm : m ≤ U32) (hNm : N ≤ m) (hlen : a.length = N) (hnd : a.Nodup) (hlt : ∀ x ∈ a, x < N) :
    ∃ a', extend u N m p a = .ok (p + (m - N), a') ∧ a'.length = N ∧ a'.Nodup ∧
      ∀ x ∈ a', x < m := by
  have h := foldlM_range'_inv (extendStep u N)
    (fun k s => s.1 + N = p + k ∧ s.2.length = N ∧ s.2.Nodup ∧ ∀ x ∈ s.2, x < k)
    (m - N) N (p, a) ⟨rfl, hlen, hnd, hlt⟩
    (by
      rintro i ⟨q, b⟩ hNi him ⟨hq, hbl, hbn, hbv⟩
      simp only at hq hbl hbn hbv
      simp only [extendStep]
      split_ifs with hj
      · rw [wr_ok _ _ _ (by omega) (by omega)]
        refine ⟨(q + 1, b.set (uniIndex (u q) (i + 1)) i), rfl, by simp; omega, by simpa using hbl,
          hbn.set (fun hmem => absurd (hbv i hmem) (lt_irrefl _)), ?_⟩
        intro x hx
        rcases List.mem_or_eq_of_mem_set hx with h | h
        · exact Nat.lt_succ_of_lt (hbv x h)
        · omega
      · exact ⟨(q + 1, b), rfl, by simp; omega, hbl, hbn,
          fun x hx => Nat.lt_succ_of_lt (hbv x hx)⟩)
  obtain ⟨⟨q, b⟩, hs, hq, hbl, hbn, hbv⟩ := h
  simp only at hq hbl hbn hbv
  have hq' : q = p + (m - N) := by omega
  subst hq'
  refine ⟨b, hs, hbl, hbn, ?_⟩
  intro x hx
  have := hbv x hx
  omega

theorem universeRemap_spec (u : ℕ → ℚ) (N m : ℕ)
    (hu : ∀ k, 0 ≤ u k ∧ u k < 1) (hNm : N ≤ m) (hm : m < U32) :
    ∃ map, universeRemap u N m = .ok (List.replicate N 0, map, (N - 1) + (m - N)) ∧
      map.length = N ∧ map.Nodup ∧ ∀ x ∈ map, x < m := by
  obtain ⟨a1, h1, hp1⟩ := shuffle_perm u 0 N (List.range N) hu (by simp)
    (fun x hx => by have := List.mem_range.1 hx; omega)
  obtain ⟨a2, h2, hl2, hn2, hv2⟩ := extend_inv u N m (0 + (N - 1)) a1 hm.le hNm
    (by simpa using hp1.length_eq) (hp1.nodup_iff.2 (List.nodup_range N))
    (fun x hx => List.mem_range.1 (hp1.subset hx))
  refine ⟨a2, ?_, hl2, hn2, hv2⟩
  simp only [universeRemap, initArrays_eq N (by omega), h1, h2, bind, Except.bind, pure,
    Except.pure]
  simp

/-! ## The sampling loop -/

theorem tally_length (draw : ℕ → ℕ) (a k : ℕ) (cnt : List ℕ) :
    (tally draw cnt a k).length = cnt.length := by
  induction k generalizing a cnt with
  | zero => simp [tally]
  | succ k ih =>
    have := ih (a + 1) (tallyStep cnt (draw a % U32))
    simp only [tally, List.range'_succ, List.foldl_cons] at this ⊢
    rw [this]; simp [tallyStep]

theorem tally_succ (draw : ℕ → ℕ) (a k : ℕ) (cnt : List ℕ) :
    tally draw cnt a (k + 1) = tally draw (tallyStep cnt (draw a % U32)) (a + 1) k := by
  simp [tally, List.range'_succ]

theorem tally_add (draw : ℕ → ℕ) (a k l : ℕ) (cnt : List ℕ) :
    tally draw cnt a (k + l) = tally draw (tally draw cnt a k) (a + k) l := by
  induction k generalizing a cnt with
  | zero => simp [tally]
  | succ k ih =>
    have e : k + 1 + l = (k + l) + 1 := by omega
    rw [e, tally_succ, tally_succ, ih]
    congr 1; omega

theorem emitted_succ (map : List ℕ) (draw : ℕ → ℕ) (a k : ℕ) :
    emitted map draw a (k + 1) = map.getD (draw a % U32) 0 :: emitted map draw (a + 1) k := by
  simp [emitted, List.range'_succ]

theorem emitted_add (map : List ℕ) (draw : ℕ → ℕ) (a k l : ℕ) :
    emitted map draw a (k + l) = emitted map draw a k ++ emitted map draw (a + k) l := by
  induction k generalizing a with
  | zero => simp [emitted]
  | succ k ih =>
    have e : k + 1 + l = (k + l) + 1 := by omega
    rw [e, emitted_succ, emitted_succ, ih]
    have e2 : a + 1 + k = a + (k + 1) := by omega
    rw [e2]
    simp

theorem emitted_length (map : List ℕ) (draw : ℕ → ℕ) (a k : ℕ) :
    (emitted map draw a k).length = k := by
  simp [emitted]

theorem take_set_succ (l : List ℕ) (j v : ℕ) (h : j < l.length) :
    (l.set j v).take (j + 1) = l.take j ++ [v] := by
  have e : (l.set j v).take j = l.take j := by
    apply List.ext_getElem?
    intro i
    rw [List.getElem?_take, List.getElem?_take]
    split
    · rw [List.getElem?_set_ne (by omega)]
    · rfl
  rw [List.take_succ, e]
  simp [h]

theorem fillChunk_spec (B count N : ℕ) (map : List ℕ) (draw : ℕ → ℕ)
    (hmap : map.length = N) (hmv : ∀ x ∈ map, x < U32) (hd : ∀ t, t < count → draw t < N) :
    ∀ (fuel : ℕ) (s : Chunk), B - s.j ≤ fuel → s.j ≤ B → s.i ≤ count →
      s.cnt.length = N → s.res.length = B →
      ∃ s' k, fillChunk B count map draw fuel s = .ok s' ∧
        s'.j = s.j + k ∧ s'.i = s.i + k ∧ s'.j ≤ B ∧ s'.i ≤ count ∧
        (s'.i = count ∨ s'.j = B) ∧
        s'.cnt = tally draw s.cnt s.i k ∧ s'.res.length = B ∧
        s'.res.take s'.j = s.res.take s.j ++ emitted map draw s.i k := by
  intro fuel
  induction fuel with
  | zero =>
    intro s hf hj hi _ hr
    refine ⟨s, 0, ?_, rfl, rfl, hj, hi, Or.inr (by omega), by simp [tally], hr,
      by simp [emitted]⟩
    have : ¬ (s.i < count ∧ s.j < B) := by omega
    simp [fillChunk, this]
  | succ fuel ih =>
    intro s hf hj hi hc hr
    by_cases hcond : s.i < count ∧ s.j < B
    · have hdN : draw s.i % U32 < N := lt_of_le_of_lt (Nat.mod_le _ _) (hd _ hcond.1)
      have hv : map.getD (draw s.i % U32) 0 < U32 := by
        rw [List.getD_eq_getElem _ _ (by omega)]; exact hmv _ (List.getElem_mem _)
      have e1 : wr s.cnt (draw s.i % U32) (s.cnt.getD (draw s.i % U32) 0 + 1)
          = .ok (tallyStep s.cnt (draw s.i % U32)) := by
        simp [wr, tallyStep, hc, hdN]
      obtain ⟨s', k, hs', hj', hi', hjB, hic, hstop, hcnt, hrl, hres⟩ :=
        ih { j := s.j + 1, i := s.i + 1, cnt := tallyStep s.cnt (draw s.i % U32),
             res := s.res.set s.j (map.getD (draw s.i % U32) 0) }
          (by simp only; omega) (by simp only; omega) (by simp only; omega)
          (by simp [tallyStep, hc]) (by simpa using hr)
      simp only at hj' hi' hcnt hres
      refine ⟨s', k + 1, ?_, by omega, by omega, hjB, hic, hstop, ?_, hrl, ?_⟩
      · rw [fillChunk, if_pos hcond]
        simp only [rd_ok _ _ (show draw s.i % U32 < s.cnt.length by omega), e1,
          rd_ok _ _ (show draw s.i % U32 < map.length by omega),
          wr_ok _ _ _ (show s.j < s.res.length by omega) hv, bind, Except.bind]
        exact hs'
      · rw [tally_succ]; exact hcnt
      · rw [hres, take_set_succ _ _ _ (by omega), emitted_succ]; simp
    · refine ⟨s, 0, ?_, rfl, rfl, hj, hi, by omega, by simp [tally], hr, by simp [emitted]⟩
      rw [fillChunk, if_neg hcond]

theorem samplingLoop_spec (B count N : ℕ) (map : List ℕ) (draw : ℕ → ℕ) (hB : 0 < B)
    (hmap : map.length = N) (hmv : ∀ x ∈ map, x < U32) (hd : ∀ t, t < count → draw t < N) :
    ∀ (fuel : ℕ) (st : Sample), count - st.i ≤ fuel → st.i ≤ count → st.cnt.length = N →
      ∃ st', samplingLoop B count map draw fuel st = .ok st' ∧ st'.i = count ∧
        st'.cnt = tally draw st.cnt st.i (count - st.i) ∧
        st'.tmp.flatten = st.tmp.flatten ++ emitted map draw st.i (count - st.i) ∧
        ((∀ c ∈ st.tmp, c.length ≤ B) → ∀ c ∈ st'.tmp, c.length ≤ B) := by
  intro fuel
  induction fuel with
  | zero =>
    intro st hf hi _
    have h0 : count - st.i = 0 := by omega
    refine ⟨st, ?_, by omega, by simp [h0, tally], by simp [h0, emitted], fun h => h⟩
    have : ¬ st.i < count := by omega
    simp [samplingLoop, this]
  | succ fuel ih =>
    intro st hf hi hc
    by_cases hcond : st.i < count
    · obtain ⟨s, k, hs, hj, hi', hjB, hic, hstop, hcnt, hrl, hres⟩ :=
        fillChunk_spec B count N map draw hmap hmv hd B
          { j := 0, i := st.i, cnt := st.cnt, res := List.replicate B 0 }
          (by simp) (by simp) hi hc (by simp)
      simp only at hj hi' hcnt hres
      have hk : 0 < k := by omega
      obtain ⟨st', hst', hi2, hcnt2, htmp2, hlen2⟩ :=
        ih { i := s.i, cnt := s.cnt, tmp := st.tmp ++ [s.res.take s.j] }
          (by simp only; omega) hic (by rw [hcnt, tally_length]; exact hc)
      simp only at hcnt2 htmp2 hlen2
      have hsplit : count - st.i = k + (count - s.i) := by omega
      refine ⟨st', ?_, hi2, ?_, ?_, ?_⟩
      · rw [samplingLoop, if_pos hcond]
        simp only [hs, bind, Except.bind]
        exact hst'
      · rw [hcnt2, hcnt, hsplit, tally_add, hi']
      · rw [htmp2, hsplit, emitted_add, hres, hi']
        simp
      · intro h c hcm
        apply hlen2 _ c hcm
        intro c' hc'
        rcases List.mem_append.1 hc' with h1 | h1
        · exact h c' h1
        · simp only [List.mem_singleton] at h1
          subst h1
          simp [hrl]
    · have h0 : count - st.i = 0 := by omega
      refine ⟨st, ?_, by omega, by simp [h0, tally], by simp [h0, emitted], fun h => h⟩
      rw [samplingLoop, if_neg hcond]

/-! ## Tallies and the emitted stream -/

theorem emitted_eq_map (map : List ℕ) (draw : ℕ → ℕ) (N k : ℕ) (hN : N ≤ U32)
    (hd : ∀ t, t < k → draw t < N) :
    emitted map draw 0 k = (List.range k).map (fun t => map.getD (draw t) 0) := by
  rw [List.range_eq_range']
  apply List.map_congr_left
  intro t ht
  have : t < k := by simpa using ht
  rw [Nat.mod_eq_of_lt (lt_of_lt_of_le (hd t this) hN)]

theorem sampling_run (N count fuel : ℕ) (map : List ℕ) (draw : ℕ → ℕ)
    (hmap : map.length = N) (hmv : ∀ x ∈ map, x < U32) (hd : ∀ t, t < count → draw t < N)
    (hf : count ≤ fuel) :
    ∃ st, samplingLoop BUFFER count map draw fuel { i := 0, cnt := List.replicate N 0, tmp := [] }
        = .ok st ∧ st.i = count ∧
      st.cnt = tally draw (List.replicate N 0) 0 count ∧
      st.tmp.flatten = emitted map draw 0 count ∧ ∀ c ∈ st.tmp, c.length ≤ BUFFER := by
  obtain ⟨st, h1, h2, h3, h4, h5⟩ := samplingLoop_spec BUFFER count N map draw
    (by norm_num [BUFFER]) hmap hmv hd fuel { i := 0, cnt := List.replicate N 0, tmp := [] }
    (by simp only; omega) (by simp only; omega) (by simp)
  refine ⟨st, h1, h2, by simpa using h3, by simpa using h4, h5 (by simp)⟩

/-- C3: for every `count` and all draws in `[0, N)` the sampling loop ends (any budget of at
least `count` iterations is enough), the chunks it writes to staging, concatenated, are exactly
`map[d_0], ..., map[d_(count-1)]` in draw order, that is `count` records, and no chunk holds more
than `BUFFER = 524288` records. -/
theorem staging_is_draws_in_order (N count fuel : ℕ) (map : List ℕ) (draw : ℕ → ℕ)
    (hN : N ≤ U32) (hmap : map.length = N) (hmv : ∀ x ∈ map, x < U32)
    (hd : ∀ t, t < count → draw t < N) (hf : count ≤ fuel) :
    ∃ st, samplingLoop BUFFER count map draw fuel { i := 0, cnt := List.replicate N 0, tmp := [] }
        = .ok st ∧
      st.tmp.flatten = (List.range count).map (fun t => map.getD (draw t) 0) ∧
      st.tmp.flatten.length = count ∧ (∀ c ∈ st.tmp, c.length ≤ BUFFER) ∧ BUFFER = 524288 := by
  obtain ⟨st, h1, _, _, h4, h5⟩ := sampling_run N count fuel map draw hmap hmv hd hf
  have e := emitted_eq_map map draw N count hN hd
  refine ⟨st, h1, by rw [h4, e], by rw [h4, emitted_length], h5, by norm_num [BUFFER]⟩

theorem staging_is_draws_in_order_witness :
    (2 ≤ U32 ∧ [5, 7].length = 2 ∧ (∀ x ∈ [5, 7], x < U32) ∧
      (∀ t, t < 3 → (fun k => k % 2) t < 2) ∧ 3 ≤ 3) ∧
    ∃ st, samplingLoop BUFFER 3 [5, 7] (fun k => k % 2) 3
        { i := 0, cnt := List.replicate 2 0, tmp := [] } = .ok st ∧
      st.tmp.flatten = (List.range 3).map (fun t => [5, 7].getD ((fun k => k % 2) t) 0) ∧
      st.tmp.flatten.length = 3 ∧ (∀ c ∈ st.tmp, c.length ≤ BUFFER) ∧ BUFFER = 524288 :=
  ⟨⟨by norm_num [U32], rfl, by simp [U32], fun t _ => Nat.mod_lt t (by norm_num), le_refl _⟩,
    staging_is_draws_in_order 2 3 3 [5, 7] (fun k => k % 2) (by norm_num [U32]) rfl
      (by simp [U32]) (fun t _ => Nat.mod_lt t (by norm_num)) (le_refl _)⟩

/-! ## Results on the Identity Map -/

/-- C1: for `1 ≤ N ≤ M` (`M` a `uint32_t`) and every stream of uniform draws in `[0, 1)`, the
remapper completes and the Identity Map it leaves has `N` pairwise distinct entries, each in
`[0, M)`. -/
theorem identity_map_distinct (u : ℕ → ℚ) (N M : ℕ) (hN : 1 ≤ N) (hNM : N ≤ M) (hM : M < U32)
    (hu : ∀ k, 0 ≤ u k ∧ u k < 1) :
    ∃ cnt map p, universeRemap u N M = .ok (cnt, map, p) ∧
      map.length = N ∧ map.Nodup ∧ ∀ x ∈ map, x < M := by
  have _ := hN
  obtain ⟨map, h, hl, hn, hv⟩ := universeRemap_spec u N M hu hNM hM
  exact ⟨_, map, _, h, hl, hn, hv⟩

theorem identity_map_distinct_witness :
    (1 ≤ 2 ∧ 2 ≤ 3 ∧ 3 < U32 ∧ ∀ k : ℕ, 0 ≤ (fun _ => (1 / 2 : ℚ)) k ∧
      (fun _ => (1 / 2 : ℚ)) k < 1) ∧
    ∃ cnt map p, universeRemap (fun _ => (1 / 2 : ℚ)) 2 3 = .ok (cnt, map, p) ∧
      map.length = 2 ∧ map.Nodup ∧ ∀ x ∈ map, x < 3 :=
  ⟨⟨by norm_num, by norm_num, by norm_num [U32], fun _ => by norm_num⟩,
    identity_map_distinct (fun _ => (1 / 2 : ℚ)) 2 3 (by norm_num) (by norm_num)
      (by norm_num [U32]) (fun _ => by norm_num)⟩

theorem uniIndex_eval (x : ℚ) (k j : ℕ) (h1 : (j : ℚ) ≤ x * k) (h2 : x * k < j + 1) :
    uniIndex x k = j := by
  unfold uniIndex
  rw [Nat.floor_eq_iff (le_trans (by positivity) h1)]
  exact ⟨h1, h2⟩

/-- C7, as stated, fails: with `N = 2`, `M = 3` and every uniform draw equal to `9/10`, the only
extension step draws `j = 2`, which is not below `N`, so no slot is redirected although
`M - N = 1`. -/
theorem no_slot_redirected :
    universeRemap (fun _ => (9 / 10 : ℚ)) 2 3 = .ok ([0, 0], [0, 1], 2) ∧
      ([0, 1].filter (fun x => decide (2 ≤ x))).length ≠ 3 - 2 := by
  have e1 : uniIndex (9 / 10 : ℚ) (0 + 1) = 0 := uniIndex_eval _ _ _ (by norm_num) (by norm_num)
  have e2 : uniIndex (9 / 10 : ℚ) (2 + 1) = 2 := uniIndex_eval _ _ _ (by norm_num) (by norm_num)
  have hr : List.range 2 = [0, 1] := rfl
  have hr1 : List.range 1 = [0] := rfl
  refine ⟨?_, by decide⟩
  simp [universeRemap, initArrays, initStep, shuffle, shuffleStep, extend, extendStep, wr, rd,
    xmalloc, hr, hr1, e1, e2, U32, bind, Except.bind, pure, Except.pure, List.range']

theorem filter_ge_length_le (l : List ℕ) (N M : ℕ) (hn : l.Nodup) (hv : ∀ x ∈ l, x < M) :
    (l.filter (fun x => decide (N ≤ x))).length ≤ M - N := by
  have hnd : (l.filter (fun x => decide (N ≤ x))).Nodup := hn.filter _
  have hsub : l.filter (fun x => decide (N ≤ x)) ⊆ List.range' N (M - N) := by
    intro x hx
    rw [List.mem_filter] at hx
    have h1 := hv x hx.1
    have h2 : N ≤ x := by simpa using hx.2
    rw [List.mem_range'_1]
    omega
  have := (List.subperm_of_subset hnd hsub).length_le
  simpa using this

/-- C7 (amended): for `1 ≤ N ≤ M` and every stream of uniform draws, after the remapper at most
`M - N` (and at most `N`) Identity Map entries hold identities in `[N, M)`, and those identities
are pairwise distinct. -/
theorem redirected_slots_bound (u : ℕ → ℚ) (N M : ℕ) (hN : 1 ≤ N) (hNM : N ≤ M) (hM : M < U32)
    (hu : ∀ k, 0 ≤ u k ∧ u k < 1) :
    ∃ cnt map p, universeRemap u N M = .ok (cnt, map, p) ∧
      (map.filter (fun x => decide (N ≤ x))).length ≤ M - N ∧
      (map.filter (fun x => decide (N ≤ x))).length ≤ N ∧
      (map.filter (fun x => decide (N ≤ x))).Nodup ∧
      ∀ x ∈ map.filter (fun x => decide (N ≤ x)), N ≤ x ∧ x < M := by
  have _ := hN
  obtain ⟨map, h, hl, hn, hv⟩ := universeRemap_spec u N M hu hNM hM
  refine ⟨_, map, _, h, filter_ge_length_le map N M hn hv, ?_, hn.filter _, ?_⟩
  · rw [← hl]; exact List.length_filter_le _ _
  · intro x hx
    rw [List.mem_filter] at hx
    exact ⟨by simpa using hx.2, hv x hx.1⟩

theorem redirected_slots_bound_witness :
    (1 ≤ 2 ∧ 2 ≤ 3 ∧ 3 < U32 ∧ ∀ k : ℕ, 0 ≤ (fun _ => (1 / 2 : ℚ)) k ∧
      (fun _ => (1 / 2 : ℚ)) k < 1) ∧
    ∃ cnt map p, universeRemap (fun _ => (1 / 2 : ℚ)) 2 3 = .ok (cnt, map, p) ∧
      (map.filter (fun x => decide (2 ≤ x))).length ≤ 3 - 2 ∧
      (map.filter (fun x => decide (2 ≤ x))).length ≤ 2 ∧
      (map.filter (fun x => decide (2 ≤ x))).Nodup ∧
      ∀ x ∈ map.filter (fun x => decide (2 ≤ x)), 2 ≤ x ∧ x < 3 :=
  ⟨⟨by norm_num, by norm_num, by norm_num [U32], fun _ => by norm_num⟩,
    redirected_slots_bound (fun _ => (1 / 2 : ℚ)) 2 3 (by norm_num) (by norm_num)
      (by norm_num [U32]) (fun _ => by norm_num)⟩

/-! ## Round trip between the sample stream and the tallies -/

/-- C5 fails on the code: on a two-entry array the single loop turn (`i = 0`) draws
`j = xuni_rand()*1 = 0` and swaps `array[0]` with itself, so the array is returned unchanged for
every uniform draw in `[0, 1)`; the permutation that exchanges the two entries is never
produced. -/
theorem shuffle_pair_unchanged (u : ℕ → ℚ) (p : ℕ) (h0 : 0 ≤ u p) (h1 : u p < 1) :
    shuffle u p [0, 1] 2 = .ok (p + 1, [0, 1]) := by
  have e : uniIndex (u p) (0 + 1) = 0 := by
    have := uniIndex_le (u p) 0 h0 h1
    omega
  have hr1 : List.range 1 = [0] := rfl
  simp [shuffle, shuffleStep, hr1, e, rd, wr, U32, bind, Except.bind, pure, Except.pure]

theorem shuffle_pair_unchanged_witness :
    (0 ≤ (fun _ => (1 / 2 : ℚ)) 0 ∧ (fun _ => (1 / 2 : ℚ)) 0 < 1) ∧
      shuffle (fun _ => (1 / 2 : ℚ)) 0 [0, 1] 2 = .ok (0 + 1, [0, 1]) :=
  ⟨by norm_num, shuffle_pair_unchanged (fun _ => (1 / 2 : ℚ)) 0 (by norm_num) (by norm_num)⟩

/-- For every array of `n ≥ 2` entries, `shuffle` leaves the last entry where it is: the loop
stops at `i = n - 2` and draws `j ≤ i`, so index `n - 1` is never touched. -/
theorem shuffle_last_fixed (u : ℕ → ℚ) (p n : ℕ) (a : List ℕ)
    (hu : ∀ k, 0 ≤ u k ∧ u k < 1) (hn : 2 ≤ n) (hlen : a.length = n)
    (hv : ∀ x ∈ a, x < U32) :
    ∃ a', shuffle u p a n = .ok (p + (n - 1), a') ∧ a'.getD (n - 1) 0 = a.getD (n - 1) 0 := by
  unfold shuffle
  rw [if_pos (by omega)]
  have h := foldlM_range_inv (shuffleStep u)
    (fun k s => s.1 = p + k ∧ s.2.Perm a ∧ s.2.getD (n - 1) 0 = a.getD (n - 1) 0)
    (n - 1) (p, a) ⟨rfl, List.Perm.refl _, rfl⟩
    (by
      rintro i ⟨q, b⟩ hi ⟨hq, hb, hlast⟩
      simp only at hq hb hlast
      subst hq
      have hbl : b.length = n := by rw [hb.length_eq]; exact hlen
      obtain ⟨j, hj, hstep⟩ := shuffleStep_eq u (p + i) i b (hu _) (by omega)
        (fun x hx => hv x (hb.subset hx))
      refine ⟨_, hstep, rfl, (swap_perm b i j (by omega) (by omega)).trans hb, ?_⟩
      simp only
      rw [← hlast, List.getD_eq_getElem?_getD, List.getD_eq_getElem?_getD,
        List.getElem?_set_ne (by omega), List.getElem?_set_ne (by omega)]
      simp)
  obtain ⟨⟨q, b⟩, hs, hq, _, hlast⟩ := h
  simp only at hq hlast
  subst hq
  exact ⟨b, hs, hlast⟩

/-! ## Top-K block -/

theorem quicksort_map_length (cnt map : List ℕ) (N : ℕ) (hc : cnt.length = N)
    (hm : map.length = N) :
    (quicksort_map cnt map).1.length = N ∧ (quicksort_map cnt map).2.length = N := by
  simp [quicksort_map, List.unzip_fst, List.unzip_snd, List.length_insertionSort, hc, hm]

theorem topK_ok (cnt map : List ℕ) (count N : ℕ) (hc : cnt.length = N) (hm : map.length = N) :
    ∃ out, topK cnt map count N = .ok out ∧ out.length = min TOPK N := by
  have h := foldlM_range_inv (topkStep cnt map count) (fun k out => out.length = k)
    (min TOPK N) [] rfl
    (by
      intro i out hi hI
      have hiN : i < N := lt_of_lt_of_le hi (min_le_right _ _)
      refine ⟨out ++ [(map.getD i 0, fdiv (cnt.getD i 0) count)], ?_, by simp [hI]⟩
      simp only [topkStep, rd_ok _ _ (show i < map.length by omega),
        rd_ok _ _ (show i < cnt.length by omega), bind, Except.bind, pure, Except.pure])
  simpa [topK] using h

/-- C8 fails on the code: at `N = 1`, `M = 1`, `count = 0` the run completes with an empty
sample stream, but the single Top-K entry is `(double)0 / 0`, which is NaN and not 0. -/
theorem topk_nan_at_count_zero (u : ℕ → ℚ) (draw : ℕ → ℕ) (fuel : ℕ) :
    pipeline u draw 1 1 0 fuel
      = .ok { map := [0], cnt := [0], chunks := [], topk := [(0, Dbl.nan)], stream := [] } := by
  have hr1 : List.range 1 = [0] := rfl
  have hrem : universeRemap u 1 1 = .ok ([0], [0], 0) := by
    simp [universeRemap, initArrays, initStep, shuffle, extend, wr, xmalloc, hr1, U32, bind,
      Except.bind, pure, Except.pure]
  have hs : samplingLoop BUFFER 0 [0] draw fuel { i := 0, cnt := [0], tmp := [] }
      = .ok { i := 0, cnt := [0], tmp := [] } := by
    cases fuel <;> simp [samplingLoop]
  have hq : quicksort_map [0] [0] = ([0], [0]) := by
    simp [quicksort_map, List.insertionSort, List.orderedInsert]
  have ht : topK [0] [0] 0 1 = .ok [(0, Dbl.nan)] := by
    simp [topK, TOPK, hr1, topkStep, rd, fdiv, bind, Except.bind, pure, Except.pure]
  simp [pipeline, pipelineWith, hrem, hs, hq, ht, bind, Except.bind, pure, Except.pure]

/-! ## Every access is in bounds -/

/-- C10: for `1 ≤ N ≤ M`, uniform draws in `[0, 1)` and alias draws in `[0, N)`, the index
`j = floor(u*(i+1))` is at most `i`, and the pipeline (shuffle, extension loop, sampling loop,
sort, Top-K loop), in which every array access is checked against the allocation (`cnt`, `map`
of `N` cells, `res` of `BUFFER = 524288` cells), completes without an out-of-bounds access. -/
theorem accesses_in_bounds (u : ℕ → ℚ) (draw : ℕ → ℕ) (N M count fuel : ℕ)
    (hN : 1 ≤ N) (hNM : N ≤ M) (hM : M < U32) (hu : ∀ k, 0 ≤ u k ∧ u k < 1)
    (hd : ∀ t, t < count → draw t < N) (hf : count ≤ fuel) :
    (∀ k i, uniIndex (u k) (i + 1) ≤ i) ∧
    ∃ r, pipeline u draw N M count fuel = .ok r ∧ r.map.length = N ∧ r.cnt.length = N ∧
      (∀ c ∈ r.chunks, c.length ≤ BUFFER) ∧ r.topk.length = min TOPK N := by
  have _ := hN
  refine ⟨fun k i => uniIndex_le _ _ (hu k).1 (hu k).2, ?_⟩
  obtain ⟨map, h, hl, _, hv⟩ := universeRemap_spec u N M hu hNM hM
  obtain ⟨st, h1, _, h3, _, h5⟩ := sampling_run N count fuel map draw hl
    (fun x hx => lt_trans (hv x hx) hM) hd hf
  have hcl : st.cnt.length = N := by rw [h3, tally_length]; simp
  obtain ⟨hq1, hq2⟩ := quicksort_map_length st.cnt map N hcl hl
  obtain ⟨out, ho, hol⟩ := topK_ok _ _ count N hq1 hq2
  refine ⟨{ map := map, cnt := st.cnt, chunks := st.tmp, topk := out,
            stream := st.tmp.flatten }, ?_, hl, hcl, h5, hol⟩
  simp only [pipeline, pipelineWith, h, h1, ho, bind, Except.bind, pure, Except.pure]

theorem accesses_in_bounds_witness :
    (1 ≤ 2 ∧ 2 ≤ 3 ∧ 3 < U32 ∧
      (∀ k : ℕ, 0 ≤ (fun _ => (1 / 2 : ℚ)) k ∧ (fun _ => (1 / 2 : ℚ)) k < 1) ∧
      (∀ t, t < 5 → (fun k => k % 2) t < 2) ∧ 5 ≤ 5) ∧
    ((∀ k i : ℕ, uniIndex ((fun _ => (1 / 2 : ℚ)) k) (i + 1) ≤ i) ∧
    ∃ r, pipeline (fun _ => (1 / 2 : ℚ)) (fun k => k % 2) 2 3 5 5 = .ok r ∧ r.map.length = 2 ∧
      r.cnt.length = 2 ∧ (∀ c ∈ r.chunks, c.length ≤ BUFFER) ∧ r.topk.length = min TOPK 2) :=
  ⟨⟨by norm_num, by norm_num, by norm_num [U32], fun _ => by norm_num,
      fun t _ => Nat.mod_lt t (by norm_num), le_refl _⟩,
    accesses_in_bounds (fun _ => (1 / 2 : ℚ)) (fun k => k % 2) 2 3 5 5 (by norm_num)
      (by norm_num) (by norm_num [U32]) (fun _ => by norm_num)
      (fun t _ => Nat.mod_lt t (by norm_num)) (le_refl _)⟩

/-! ## A run with no weighted element -/

theorem extend_zero (u : ℕ → ℚ) (m p : ℕ) : extend u 0 m p [] = .ok (p + m, []) := by
  have h := foldlM_range'_inv (extendStep u 0) (fun k s => s = (p + k, [])) m 0 (p, []) rfl
    (by
      intro i s _ _ hs
      subst hs
      exact ⟨(p + (i + 1), []), by simp [extendStep, pure, Except.pure]; omega, rfl⟩)
  obtain ⟨s, hs, hI⟩ := h
  simp only [Nat.zero_add] at hI
  subst hI
  simpa [extend] using hs

theorem universeRemap_zero (u : ℕ → ℚ) (m : ℕ) : universeRemap u 0 m = .ok ([], [], m) := by
  simp [universeRemap, initArrays, xmalloc, shuffle, extend_zero, bind, Except.bind, pure,
    Except.pure]

theorem fillChunk_no_cells (B count : ℕ) (map res : List ℕ) (draw : ℕ → ℕ) (hB : 0 < B)
    (hc : 0 < count) :
    fillChunk B count map draw B { j := 0, i := 0, cnt := [], res := res }
      = .error Fault.outOfBounds := by
  obtain ⟨b, rfl⟩ : ∃ b, B = b + 1 := ⟨B - 1, by omega⟩
  rw [fillChunk, if_pos ⟨hc, hB⟩]
  simp [rd, bind, Except.bind]

/-- C9 fails on the code: the options `-f out -N 0 -m 3 -c 10` (file name bytes `o`, `u`, `t`)
pass the option stage, which returns the configuration with `N = 0` instead of a usage exit,
and the run goes on to the draw loop, whose first turn indexes `cnt[draw]` in an allocation of
zero cells. -/
theorem zero_elements_not_rejected (D : Type) (half : D) (seed1 seed2 : ℤ) (u : ℕ → ℚ)
    (draw : ℕ → ℕ) (fuel : ℕ) :
    configStage half seed1 seed2
        [(Opt.f [111, 117, 116], false), (Opt.N 0, false), (Opt.m 3, false), (Opt.c 10, false)]
      = .ok { alpha := half, count := 10, N := 0, m := 3, filename := some [111, 117, 116],
              I1 := seed1, I2 := seed2 } ∧
    main half seed1 seed2
        [(Opt.f [111, 117, 116], false), (Opt.N 0, false), (Opt.m 3, false), (Opt.c 10, false)]
        u draw (fuel + 1)
      = .error Fault.outOfBounds := by
  have hcfg : configStage half seed1 seed2
        [(Opt.f [111, 117, 116], false), (Opt.N 0, false), (Opt.m 3, false), (Opt.c 10, false)]
      = .ok { alpha := half, count := 10, N := 0, m := 3, filename := some [111, 117, 116],
              I1 := seed1, I2 := seed2 } := by
    simp [configStage, optStep, defaultConfig, toU32, toU64, U32, U64, bind, Except.bind, pure,
      Except.pure]
  refine ⟨hcfg, ?_⟩
  have hfill := fillChunk_no_cells BUFFER 10 [] (List.replicate BUFFER 0) draw
    (by norm_num [BUFFER]) (by norm_num)
  simp only [main, hcfg, pipeline, pipelineWith, universeRemap_zero, bind, Except.bind]
  rw [samplingLoop, if_pos (by norm_num)]
  simp only [hfill, bind, Except.bind]

end Zipfian
